import Mathlib

/-!
# Verification of cmmn3 core components

Shallow embedding of the core algorithms of the `cmmn3` repository:

* the Verdict Decoder `parseOut` (src/cmmn3/parse.py, lines 8-32),
* the Interval Index, Snapshot Deduplicator and Case Aligner inside
  `convertState` (src/cmmn3/convert.py, lines 22-139),
* the event-log converter `convertLog` (src/cmmn3/convert.py, lines 141-179).

Graph construction (rdflib) and file I/O are boundary concerns and are
abstracted away: a snapshot is represented by the list of dynamic-state rows
it is built from, and an emitted trace statement by the case id together
with the list of event labels it serializes.
-/

namespace Cmmn3

/-! ## Verdict Decoder (src/cmmn3/parse.py, `parseOut`)

The encoded result is, per monitored item, an ordered list of state entries;
each state entry is a pair of a state label and a detail list (`desc`).
In the Python source the structure arrives as an RDF graph and the items are
the subjects of `ST['all']` triples; here the decoded list structure is taken
as input directly.  `errors` and `finals` are dictionaries keyed by the item
name; we model them as functions `String → Option _`.  The stored `'item': itemId`
field (a lookup in `itemObjs`) carries no information relevant to the claims
and is omitted.  The Python tuple unpacking `_, error = desc` raises for a
detail list of length other than two, which we model with `Except`. -/

structure StateEntry where
  label : String
  detail : List String
deriving DecidableEq, Repr

abbrev ErrMap := String → Option (String × String)
abbrev FinMap := String → Option String

def updateMap {α : Type} (m : String → Option α) (k : String) (v : α) :
    String → Option α :=
  fun x => if x = k then some v else m x

/-- One iteration of the `for idx, state in enumerate(states)` loop of
`parseOut`: record the final state when this is the last entry, then record a
violation `(error, state)` when the detail list has more than one element. -/
def procState (item : String) (s : StateEntry) (isLast : Bool)
    (acc : ErrMap × FinMap) : Except String (ErrMap × FinMap) :=
  let fins := if isLast then updateMap acc.2 item s.label else acc.2
  if 1 < s.detail.length then
    match s.detail with
    | [_, err] => .ok (updateMap acc.1 item (err, s.label), fins)
    | _ => .error item
  else
    .ok (acc.1, fins)

/-- The whole state loop of `parseOut` for one item. -/
def procStates (item : String) :
    List StateEntry → ErrMap × FinMap → Except String (ErrMap × FinMap)
  | [], acc => .ok acc
  | [s], acc => procState item s true acc
  | s :: s' :: rest, acc =>
      match procState item s false acc with
      | .ok acc' => procStates item (s' :: rest) acc'
      | .error e => .error e

/-- The item loop of `parseOut`. -/
def parseOutFrom :
    List (String × List StateEntry) → ErrMap × FinMap →
      Except String (ErrMap × FinMap)
  | [], acc => .ok acc
  | (item, states) :: rest, acc =>
      match procStates item states acc with
      | .ok acc' => parseOutFrom rest acc'
      | .error e => .error e

/-- `parseOut`: decode an encoded result into the `errors` and `finals`
mappings (src/cmmn3/parse.py lines 8-32). -/
def parseOut (out : List (String × List StateEntry)) :
    Except String (ErrMap × FinMap) :=
  parseOutFrom out (fun _ => none, fun _ => none)

def errorsOf (r : Except String (ErrMap × FinMap)) (k : String) :
    Option (String × String) :=
  match r with
  | .ok (e, _) => e k
  | .error _ => none

def finalsOf (r : Except String (ErrMap × FinMap)) (k : String) :
    Option String :=
  match r with
  | .ok (_, f) => f k
  | .error _ => none

def retOk (r : Except String (ErrMap × FinMap)) : Bool :=
  match r with
  | .ok _ => true
  | .error _ => false

/-- The last violation-shaped entry of a state-entry list (the last entry
whose detail list has length greater than one). -/
def lastViol : List StateEntry → Option StateEntry
  | [] => none
  | s :: l =>
      match lastViol l with
      | some u => some u
      | none => if 1 < s.detail.length then some s else none

/-! ## Interval Index (src/cmmn3/convert.py, lines 78-81)

A row of the dynamic-observation table (`ddf`): case id, attribute name,
value and timestamp.  Timestamps are totally ordered; we use `Nat`.
`ddf.groupby(['case:concept:name', 'concept:name'])['time:timestamp'].shift(-1)`
assigns to each row the timestamp of the *next row of the same group in the
original row order* (`NaN`, i.e. `none`, when there is no such row); the
dataframe is not sorted first.  Row identity (`dyn_state.index`) is modelled
by the row's position `idx`. -/

structure DynRow where
  caseId : Nat
  attr : String
  value : Int
  ts : Nat
deriving DecidableEq, Repr

/-- An entry of the `dtimes` table: the row plus its derived
`[time:from, time:until]` interval (`tsUntil = none` for `NaN`). -/
structure DynEntry where
  idx : Nat
  caseId : Nat
  attr : String
  value : Int
  tsFrom : Nat
  tsUntil : Option Nat
deriving DecidableEq, Repr

def sameGroup (r s : DynRow) : Bool :=
  r.caseId == s.caseId && r.attr == s.attr

/-- `groupby(...).shift(-1)` for one row: the timestamp of the next row of
the same (case, attribute) group among the remaining rows, in row order. -/
def nextGroupTs (r : DynRow) (rest : List DynRow) : Option Nat :=
  (rest.find? (fun s => sameGroup r s)).map (fun s => s.ts)

def mkDtimesFrom (i : Nat) : List DynRow → List DynEntry
  | [] => []
  | r :: rest =>
      ⟨i, r.caseId, r.attr, r.value, r.ts, nextGroupTs r rest⟩ ::
        mkDtimesFrom (i + 1) rest

/-- The `dtimes` table built from the dynamic-observation rows
(src/cmmn3/convert.py lines 78-81). -/
def mkDtimes (rows : List DynRow) : List DynEntry :=
  mkDtimesFrom 0 rows

/-- The boolean mask of the `dyn_state` selection (lines 109-112):
`caseId` matches and `time:from <= ts` and (`ts <= time:until` or
`time:until` is `NaN`). -/
def matchesAt (e : DynEntry) (c t : Nat) : Bool :=
  e.caseId == c && decide (e.tsFrom ≤ t) &&
    (match e.tsUntil with
     | some u => decide (t ≤ u)
     | none => true)

/-- The `dyn_state` dataframe selection: all rows of `dtimes` whose mask
holds, in table order. -/
def dynLookup (dtimes : List DynEntry) (c t : Nat) : List DynEntry :=
  dtimes.filter (fun e => matchesAt e c t)

/-! ## Snapshot Deduplicator and Case Aligner
(src/cmmn3/convert.py, lines 95-126)

`convert_dyn_state` only populates an RDF graph from `stat_state`,
`diagn_state` and `dyn_state`; for one case the first two are fixed, so a
built snapshot is represented by its `dyn_state` row list.  `idx_state` is
the Python dict from identity keys (`tuple(dyn_state.index)`) to state
numbers, modelled as an association list in insertion order. -/

abbrev Snapshot := List DynEntry

/-- One row of a case's event group; only the case id and the timestamp
enter the dynamic-state selection. -/
structure EvtRow where
  caseId : Nat
  ts : Nat
deriving DecidableEq, Repr

structure AlignState where
  states : List Snapshot
  idxState : List (List Nat × Nat)
  align : List Nat
deriving DecidableEq, Repr

/-- Dict lookup `idx_state[idx]` (with `idx in idx_state` as the `isSome`
test). -/
def lookupKey (m : List (List Nat × Nat)) (k : List Nat) : Option Nat :=
  (m.find? (fun p => p.1 == k)).map (fun p => p.2)

/-- The identity key of an event: `tuple(dyn_state.index)`. -/
def eventKey (dtimes : List DynEntry) (e : EvtRow) : List Nat :=
  (dynLookup dtimes e.caseId e.ts).map (fun d => d.idx)

/-- One iteration of the event loop (lines 105-126): select `dyn_state`,
take its index tuple as identity key, reuse the cached state number or build
and append a new snapshot, and append the state number to the alignment. -/
def stepEvent (dtimes : List DynEntry) (st : AlignState) (e : EvtRow) :
    AlignState :=
  match lookupKey st.idxState (eventKey dtimes e) with
  | some nr => ⟨st.states, st.idxState, st.align ++ [nr]⟩
  | none =>
      ⟨st.states ++ [dynLookup dtimes e.caseId e.ts],
       st.idxState ++ [(eventKey dtimes e, st.states.length)],
       st.align ++ [st.states.length]⟩

/-- The whole event loop for one case, started from the empty
`states`/`idx_state`/`align` of lines 95-96. -/
def alignCase (dtimes : List DynEntry) (events : List EvtRow) : AlignState :=
  events.foldl (stepEvent dtimes) ⟨[], [], []⟩

/-- One case group of the event log: the case id and its event rows (in
group order).  Static state and diagnoses only feed the graph content and
are omitted. -/
structure CaseGroup where
  caseId : Nat
  events : List EvtRow
deriving DecidableEq, Repr

/-- The case loop of `convertState` (lines 89-133): process each case group
in order, producing its contribution to the output graphs (static state plus
alignment and snapshot table); `if case == 88: break` stops the loop right
after case 88 has been processed. -/
def processCases (dtimes : List DynEntry) :
    List CaseGroup → List (Nat × AlignState)
  | [] => []
  | c :: rest =>
      (c.caseId, alignCase dtimes c.events) ::
        (if c.caseId = 88 then [] else processCases dtimes rest)

/-! ## Event-log converter (src/cmmn3/convert.py, lines 141-179)

`convertLog` reads the log with `csv.DictReader` (which consumes the header
line) and then calls `next(reader)` once more, so the first data row is
consumed before the loop starts.  A trace statement is modelled by the case
id it is emitted for together with the list of event labels serialized into
its RDF collection. -/

structure LogRow where
  caseId : String
  evt : String
  ts : String
deriving DecidableEq, Repr

/-- The row loop of `convertLog` plus the final flush (lines 153-166):
`cur` is the current case, `evts` the accumulated `rdf_evts`. -/
def logLoop : List LogRow → Option String → List String →
    List (String × List String)
  | [], cur, evts =>
      match cur with
      | none => []
      | some c => [(c, evts)]
  | r :: rest, cur, evts =>
      match cur with
      | none => logLoop rest (some r.caseId) (evts ++ [r.evt])
      | some c =>
          if c = r.caseId then
            logLoop rest (some c) (evts ++ [r.evt])
          else
            (c, evts) :: logLoop rest (some r.caseId) [r.evt]

/-- `convertLog` on the data rows of the log (the header has already been
consumed by `DictReader`): `next(reader)` drops the first data row, then the
loop runs on the rest.  On an empty row list Python's `next` would raise
`StopIteration`; the claims only concern logs with at least one data row. -/
def convertLog : List LogRow → List (String × List String)
  | [] => []
  | _ :: rest => logLoop rest none []

/-! ## Concrete inputs used by examples and counterexamples -/

/-- The encoded result of the Triage example: state history
`[("Inactive", "init"), ("Completed", ("final", "inactiveToCompleted"))]`. -/
def exTriage : List (String × List StateEntry) :=
  [("Triage",
    [⟨"Inactive", ["init"]⟩, ⟨"Completed", ["final", "inactiveToCompleted"]⟩])]

/-- An item with two violation-shaped state entries. -/
def exTwoViol : List (String × List StateEntry) :=
  [("X", [⟨"A", ["x", "k1"]⟩, ⟨"B", ["y", "k2"]⟩])]

/-- Dynamic observations of the Heart-rate example: case 7, observed at
t=10 (value 80) and t=20 (value 95). -/
def exRows : List DynRow :=
  [⟨7, "Heart rate", 80, 10⟩, ⟨7, "Heart rate", 95, 20⟩]

/-- Two observations of the same (case, attribute) group sharing the
timestamp 5. -/
def exDupTs : List DynRow :=
  [⟨1, "A", 1, 5⟩, ⟨1, "A", 2, 5⟩]

/-- A (case, attribute) group whose rows are not in timestamp order. -/
def exUnsorted : List DynRow :=
  [⟨1, "A", 1, 20⟩, ⟨1, "A", 2, 10⟩]

/-! ## Helper lemmas for the Verdict Decoder -/

theorem updateMap_same {α : Type} (m : String → Option α) (k : String)
    (v w : α) : updateMap (updateMap m k v) k w = updateMap m k w := by
  funext x
  by_cases h : x = k <;> simp [updateMap, h]

theorem procState_not_viol (item : String) (s : StateEntry) (isLast : Bool)
    (acc : ErrMap × FinMap) (h : ¬ 1 < s.detail.length) :
    procState item s isLast acc =
      .ok (acc.1, if isLast then updateMap acc.2 item s.label else acc.2) := by
  simp [procState, h]

theorem procState_viol (item : String) (s : StateEntry) (isLast : Bool)
    (acc : ErrMap × FinMap) (a b : String) (h : s.detail = [a, b]) :
    procState item s isLast acc =
      .ok (updateMap acc.1 item (b, s.label),
        if isLast then updateMap acc.2 item s.label else acc.2) := by
  simp [procState, h]

/-- If no state entry of a non-empty list is violation-shaped, the state
loop succeeds, records the last entry's label as the final state, and leaves
the error map untouched. -/
theorem procStates_no_viol (item : String) (states : List StateEntry)
    (lastE : StateEntry) (acc : ErrMap × FinMap)
    (hl : states.getLast? = some lastE)
    (hnv : ∀ s ∈ states, ¬ 1 < s.detail.length) :
    procStates item states acc = .ok (acc.1, updateMap acc.2 item lastE.label) := by
  induction states generalizing acc with
  | nil => simp at hl
  | cons s rest ih =>
      cases rest with
      | nil =>
          simp only [List.getLast?_singleton, Option.some.injEq] at hl
          subst hl
          simp [procStates, procState_not_viol item s true acc (hnv s (by simp))]
      | cons s2 rest2 =>
          rw [List.getLast?_cons_cons] at hl
          have hs : ¬ 1 < s.detail.length := hnv s (by simp)
          have hnv2 : ∀ t ∈ s2 :: rest2, ¬ 1 < t.detail.length := by
            intro t ht
            exact hnv t (by simp [ht])
          simp only [procStates, procState_not_viol item s false acc hs]
          exact ih (acc.1, acc.2) hl hnv2

/-- The state loop succeeds whenever every violation-shaped detail list is a
pair, and the resulting error map records exactly the last violation-shaped
entry for the item (each such entry overwrites the previous one). -/
theorem procStates_last_viol (item : String) (states : List StateEntry)
    (acc : ErrMap × FinMap)
    (hwf : ∀ s ∈ states, 1 < s.detail.length → s.detail.length = 2) :
    ∃ m, procStates item states acc = .ok m ∧
      m.1 = (match lastViol states with
             | none => acc.1
             | some u => updateMap acc.1 item (u.detail.getD 1 "", u.label)) := by
  induction states generalizing acc with
  | nil => exact ⟨acc, rfl, rfl⟩
  | cons s rest ih =>
      have hwf2 : ∀ t ∈ rest, 1 < t.detail.length → t.detail.length = 2 := by
        intro t ht
        exact hwf t (by simp [ht])
      cases rest with
      | nil =>
          by_cases hv : 1 < s.detail.length
          · obtain ⟨a, b, hab⟩ := List.length_eq_two.mp (hwf s (by simp) hv)
            refine ⟨_, by simpa [procStates] using procState_viol item s true acc a b hab, ?_⟩
            simp [lastViol, hv, hab]
          · refine ⟨_, by simpa [procStates] using procState_not_viol item s true acc hv, ?_⟩
            simp [lastViol, hv]
      | cons s2 rest2 =>
          by_cases hv : 1 < s.detail.length
          · obtain ⟨a, b, hab⟩ := List.length_eq_two.mp (hwf s (by simp) hv)
            obtain ⟨m, hm, hm1⟩ :=
              ih (updateMap acc.1 item (b, s.label),
                  if (false : Bool) = true then updateMap acc.2 item s.label else acc.2) hwf2
            refine ⟨m, ?_, ?_⟩
            · simp only [procStates, procState_viol item s false acc a b hab]
              simpa using hm
            · rw [hm1]
              show _ = (match lastViol (s :: s2 :: rest2) with
                        | none => acc.1
                        | some u => updateMap acc.1 item (u.detail.getD 1 "", u.label))
              rw [show lastViol (s :: s2 :: rest2) =
                    (match lastViol (s2 :: rest2) with
                     | some u => some u
                     | none => if 1 < s.detail.length then some s else none) from rfl]
              cases hlv : lastViol (s2 :: rest2) with
              | none => simp [hv, hab]
              | some u => simp [updateMap_same]
          · obtain ⟨m, hm, hm1⟩ := ih acc hwf2
            refine ⟨m, ?_, ?_⟩
            · simp only [procStates, procState_not_viol item s false acc hv]
              simpa using hm
            · rw [hm1]
              show _ = (match lastViol (s :: s2 :: rest2) with
                        | none => acc.1
                        | some u => updateMap acc.1 item (u.detail.getD 1 "", u.label))
              rw [show lastViol (s :: s2 :: rest2) =
                    (match lastViol (s2 :: rest2) with
                     | some u => some u
                     | none => if 1 < s.detail.length then some s else none) from rfl]
              cases hlv : lastViol (s2 :: rest2) with
              | none => simp [hv]
              | some u => simp

/-- The state loop always records the last entry's label as the final state
of the item, whatever violations occur on the way. -/
theorem procStates_final (item : String) (states : List StateEntry)
    (lastE : StateEntry) (acc : ErrMap × FinMap)
    (hl : states.getLast? = some lastE)
    (hwf : ∀ s ∈ states, 1 < s.detail.length → s.detail.length = 2) :
    ∃ e, procStates item states acc = .ok (e, updateMap acc.2 item lastE.label) := by
  induction states generalizing acc with
  | nil => simp at hl
  | cons s rest ih =>
      have hwf2 : ∀ t ∈ rest, 1 < t.detail.length → t.detail.length = 2 := by
        intro t ht
        exact hwf t (by simp [ht])
      cases rest with
      | nil =>
          simp only [List.getLast?_singleton, Option.some.injEq] at hl
          subst hl
          by_cases hv : 1 < s.detail.length
          · obtain ⟨a, b, hab⟩ := List.length_eq_two.mp (hwf s (by simp) hv)
            exact ⟨_, by simpa [procStates] using procState_viol item s true acc a b hab⟩
          · exact ⟨_, by simpa [procStates] using procState_not_viol item s true acc hv⟩
      | cons s2 rest2 =>
          rw [List.getLast?_cons_cons] at hl
          by_cases hv : 1 < s.detail.length
          · obtain ⟨a, b, hab⟩ := List.length_eq_two.mp (hwf s (by simp) hv)
            obtain ⟨e, he⟩ := ih (updateMap acc.1 item (b, s.label), acc.2) hl hwf2
            refine ⟨e, ?_⟩
            simp only [procStates, procState_viol item s false acc a b hab]
            simpa using he
          · obtain ⟨e, he⟩ := ih (acc.1, acc.2) hl hwf2
            refine ⟨e, ?_⟩
            simp only [procStates, procState_not_viol item s false acc hv]
            simpa using he

theorem parseOutFrom_skip_empty (post : List (String × List StateEntry))
    (item : String) (acc : ErrMap × FinMap) (pre : List (String × List StateEntry)) :
    parseOutFrom (pre ++ (item, []) :: post) acc = parseOutFrom (pre ++ post) acc := by
  induction pre generalizing acc with
  | nil => simp [parseOutFrom, procStates]
  | cons p pre2 ih =>
      obtain ⟨i, sts⟩ := p
      simp only [List.cons_append, parseOutFrom]
      cases procStates i sts acc with
      | ok acc2 => exact ih acc2
      | error e => rfl

/-! ## Claim theorems for the Verdict Decoder -/

/-- C1 (counterexample): for the item `X` with the two violation-shaped
entries `("A", ("x", "k1"))` and `("B", ("y", "k2"))`, the decoder's
violation record is only the pair of the second entry, `("k2", "B")`; the
pair `("k1", "A")` of the first entry, which the claim requires to be
accumulated as well, is not recorded. -/
theorem parseOut_two_violations_cex :
    errorsOf (parseOut exTwoViol) "X" = some ("k2", "B") ∧
      errorsOf (parseOut exTwoViol) "X" ≠ some ("k1", "A") := by
  decide

/-- C1 (amended): for every monitored item, the decoder keeps at most one
violation record: each violation-shaped entry overwrites the previous one,
so the record left for the item is the `(violation_kind, state_label)` pair
of the last violation-shaped entry of its state list (and the error map is
untouched when there is none). -/
theorem parseOut_last_violation_wins :
    ∀ (item : String) (states : List StateEntry) (acc : ErrMap × FinMap),
      (∀ s ∈ states, 1 < s.detail.length → s.detail.length = 2) →
      ∃ m, procStates item states acc = .ok m ∧
        m.1 = (match lastViol states with
               | none => acc.1
               | some u => updateMap acc.1 item (u.detail.getD 1 "", u.label)) :=
  fun item states acc hwf => procStates_last_viol item states acc hwf

/-- C1 (witness): the amended theorem applied to the two-violation input. -/
theorem parseOut_last_violation_wins_witness :
    ∃ m, procStates "X" [⟨"A", ["x", "k1"]⟩, ⟨"B", ["y", "k2"]⟩]
        (fun _ => none, fun _ => none) = .ok m ∧
      m.1 = (match lastViol [⟨"A", ["x", "k1"]⟩, ⟨"B", ["y", "k2"]⟩] with
             | none => (fun _ => none : ErrMap)
             | some u => updateMap (fun _ => none : ErrMap) "X"
                 (u.detail.getD 1 "", u.label)) :=
  parseOut_last_violation_wins "X" [⟨"A", ["x", "k1"]⟩, ⟨"B", ["y", "k2"]⟩]
    (fun _ => none, fun _ => none) (by decide)

/-- C7: for every monitored item with a non-empty state-entry list the
decoder records the state label of the last entry as the item's final state,
and an item whose list has no violation-shaped (pair-detail) entries leaves
the violation map untouched; in particular the encoded result
`[("Inactive", "init"), ("Completed", ("final", "inactiveToCompleted"))]`
for item `Triage` decodes to final state `Completed` with the violation
record `("inactiveToCompleted", "Completed")`. -/
theorem parseOut_final_state_last_entry :
    (∀ (item : String) (states : List StateEntry) (lastE : StateEntry)
        (acc : ErrMap × FinMap),
        states.getLast? = some lastE →
        (∀ s ∈ states, 1 < s.detail.length → s.detail.length = 2) →
        ∃ e, procStates item states acc = .ok (e, updateMap acc.2 item lastE.label)) ∧
      (∀ (item : String) (states : List StateEntry) (lastE : StateEntry)
        (acc : ErrMap × FinMap),
        states.getLast? = some lastE →
        (∀ s ∈ states, ¬ 1 < s.detail.length) →
        procStates item states acc = .ok (acc.1, updateMap acc.2 item lastE.label)) ∧
      finalsOf (parseOut exTriage) "Triage" = some "Completed" ∧
      errorsOf (parseOut exTriage) "Triage" = some ("inactiveToCompleted", "Completed") :=
  ⟨fun item states lastE acc hl hwf => procStates_final item states lastE acc hl hwf,
   fun item states lastE acc hl hnv => procStates_no_viol item states lastE acc hl hnv,
   by decide, by decide⟩

/-- C7 (witness): the final-state conjuncts applied to a concrete one-entry
state list. -/
theorem parseOut_final_state_last_entry_witness :
    (∃ e, procStates "I" [⟨"Done", ["d"]⟩] (fun _ => none, fun _ => none) =
        .ok (e, updateMap (fun _ => none : FinMap) "I" "Done")) ∧
      procStates "I" [⟨"Done", ["d"]⟩] (fun _ => none, fun _ => none) =
        .ok ((fun _ => none : ErrMap), updateMap (fun _ => none : FinMap) "I" "Done") :=
  ⟨parseOut_final_state_last_entry.1 "I" [⟨"Done", ["d"]⟩] ⟨"Done", ["d"]⟩
      (fun _ => none, fun _ => none) (by decide) (by decide),
   parseOut_final_state_last_entry.2.1 "I" [⟨"Done", ["d"]⟩] ⟨"Done", ["d"]⟩
      (fun _ => none, fun _ => none) (by decide) (by decide)⟩

/-- C8 (counterexample): on an encoded result containing the item `X` with
an empty state-entry list, the decoder returns normally (it does not raise),
and the item is silently absent from both the finals and the violations
mappings. -/
theorem parseOut_empty_states_cex :
    retOk (parseOut [("X", ([] : List StateEntry))]) = true ∧
      finalsOf (parseOut [("X", ([] : List StateEntry))]) "X" = none ∧
      errorsOf (parseOut [("X", ([] : List StateEntry))]) "X" = none := by
  decide

/-- C8 (amended): an item with an empty state-entry list is silently
skipped: the decoder's result on any encoded list containing it is exactly
the result on the list with that item removed, so it returns normally,
records no final state for the item and infers no default. -/
theorem parseOut_empty_item_skipped :
    ∀ (pre post : List (String × List StateEntry)) (item : String)
      (acc : ErrMap × FinMap),
      parseOutFrom (pre ++ (item, []) :: post) acc = parseOutFrom (pre ++ post) acc :=
  fun pre post item acc => parseOutFrom_skip_empty post item acc pre

/-! ## Helper lemmas for the Interval Index -/

theorem matchesAt_iff (e : DynEntry) (c t : Nat) :
    matchesAt e c t = true ↔
      e.caseId = c ∧ e.tsFrom ≤ t ∧
        (e.tsUntil = none ∨ ∃ u, e.tsUntil = some u ∧ t ≤ u) := by
  unfold matchesAt
  cases h : e.tsUntil <;> simp [h, and_assoc]

theorem mem_mkDtimesFrom (i : Nat) (rows : List DynRow) (e : DynEntry)
    (he : e ∈ mkDtimesFrom i rows) :
    ∃ r ∈ rows, e.caseId = r.caseId ∧ e.attr = r.attr ∧ e.tsFrom = r.ts := by
  induction rows generalizing i with
  | nil => simp [mkDtimesFrom] at he
  | cons r rest ih =>
      simp only [mkDtimesFrom, List.mem_cons] at he
      rcases he with he | he
      · exact ⟨r, by simp, by simp [he]⟩
      · obtain ⟨s, hs, h⟩ := ih (i + 1) he
        exact ⟨s, by simp [hs], h⟩

theorem find?_eq_head_filter {α : Type} (p : α → Bool) (l : List α) :
    l.find? p = (l.filter p).head? := by
  induction l with
  | nil => rfl
  | cons a l ih =>
      rw [List.filter_cons]
      cases h : p a with
      | true => simp [List.find?_cons_of_pos _ h]
      | false =>
          rw [List.find?_cons_of_neg _ (by simp [h])]
          simp only [Bool.false_eq_true, if_false]
          exact ih

theorem foldl_min_of_le (a : Nat) (l : List Nat) (h : ∀ x ∈ l, a ≤ x) :
    l.foldl min a = a := by
  induction l generalizing a with
  | nil => rfl
  | cons b l ih =>
      simp only [List.foldl_cons, min_eq_left (h b (by simp))]
      exact ih a (fun x hx => h x (by simp [hx]))

theorem min?_eq_head_of_sorted (l : List Nat) (h : l.Pairwise (· < ·)) :
    l.min? = l.head? := by
  cases l with
  | nil => rfl
  | cons a l =>
      rw [List.min?_cons', List.head?_cons]
      rw [foldl_min_of_le a l
        (fun x hx => le_of_lt ((List.pairwise_cons.mp h).1 x hx))]

/-- Interval derivation following the spec's words (section 4.1): within a
(case, attribute) group ordered by timestamp ascending, the until of an
entry is the next entry's timestamp, unbounded for the last — for distinct
group timestamps this is the least group timestamp strictly above the
entry's own timestamp. -/
def specUntil (rows : List DynRow) (e : DynEntry) : Option Nat :=
  ((rows.filter (fun s =>
      s.caseId == e.caseId && s.attr == e.attr && decide (e.tsFrom < s.ts))).map
    (fun s => s.ts)).min?

/-- Each (case, attribute) group appears in strictly increasing timestamp
order in the input rows. -/
def groupSorted (rows : List DynRow) : Prop :=
  rows.Pairwise (fun r s => r.caseId = s.caseId → r.attr = s.attr → r.ts < s.ts)

theorem specUntil_head (r : DynRow) (rest : List DynRow) (i : Nat)
    (hr : ∀ s ∈ rest, r.caseId = s.caseId → r.attr = s.attr → r.ts < s.ts)
    (hrest : List.Pairwise
      (fun x y => x.caseId = y.caseId → x.attr = y.attr → x.ts < y.ts) rest) :
    specUntil (r :: rest)
        ⟨i, r.caseId, r.attr, r.value, r.ts, nextGroupTs r rest⟩ =
      nextGroupTs r rest := by
  unfold specUntil
  rw [List.filter_cons]
  rw [if_neg (by simp)]
  rw [List.filter_congr (l := rest) (q := fun s => sameGroup r s) ?hcongr]
  case hcongr =>
    intro s hs
    rw [Bool.eq_iff_iff]
    simp only [sameGroup, Bool.and_eq_true, beq_iff_eq, decide_eq_true_eq]
    constructor
    · rintro ⟨⟨h1, h2⟩, _⟩
      exact ⟨h1.symm, h2.symm⟩
    · rintro ⟨h1, h2⟩
      exact ⟨⟨h1.symm, h2.symm⟩, hr s hs h1 h2⟩
  rw [min?_eq_head_of_sorted _ ?hsorted]
  case hsorted =>
    rw [List.pairwise_map]
    refine List.Pairwise.imp_of_mem ?_ (hrest.filter (fun s => sameGroup r s))
    intro x y hx hy hxy
    have hxg := (List.mem_filter.mp hx).2
    have hyg := (List.mem_filter.mp hy).2
    simp only [sameGroup, Bool.and_eq_true, beq_iff_eq] at hxg hyg
    exact hxy (hxg.1.symm.trans hyg.1) (hxg.2.symm.trans hyg.2)
  rw [List.head?_map]
  rw [nextGroupTs, find?_eq_head_filter]

theorem specUntil_tail (r : DynRow) (rest : List DynRow) (e : DynEntry)
    (hr : ∀ s ∈ rest, r.caseId = s.caseId → r.attr = s.attr → r.ts < s.ts)
    (s0 : DynRow) (hs0 : s0 ∈ rest) (hc0 : e.caseId = s0.caseId)
    (ha0 : e.attr = s0.attr) (ht0 : e.tsFrom = s0.ts) :
    specUntil (r :: rest) e = specUntil rest e := by
  unfold specUntil
  rw [List.filter_cons]
  rw [if_neg ?hneg]
  case hneg =>
    simp only [Bool.and_eq_true, beq_iff_eq, decide_eq_true_eq, not_and]
    intro h1 h2
    have hlt : r.ts < s0.ts := hr s0 hs0 (h1.1.trans hc0) (h1.2.trans ha0)
    omega

theorem mkDtimesFrom_until_groupSorted :
    ∀ (rows : List DynRow), groupSorted rows →
      ∀ (i : Nat), ∀ e ∈ mkDtimesFrom i rows, e.tsUntil = specUntil rows e := by
  intro rows
  induction rows with
  | nil =>
      intro _ i e he
      simp [mkDtimesFrom] at he
  | cons r rest ih =>
      intro hs i e he
      rw [groupSorted, List.pairwise_cons] at hs
      obtain ⟨hr, hrest⟩ := hs
      simp only [mkDtimesFrom, List.mem_cons] at he
      rcases he with rfl | he
      · exact (specUntil_head r rest i hr hrest).symm
      · obtain ⟨s0, hs0, hc0, ha0, ht0⟩ := mem_mkDtimesFrom (i + 1) rest e he
        rw [ih hrest (i + 1) e he]
        exact (specUntil_tail r rest e hr s0 hs0 hc0 ha0 ht0).symm


/-! ## Claim theorems for the Interval Index -/

/-- C2: membership in the `dyn_state` selection is exactly the interval
condition `from <= instant <= until`, or `from <= instant` with `until`
unbounded; when the instant lies before the first recorded observation of a
(case, attribute) group, no observation of that attribute is selected and
the attribute is absent from the snapshot; and for case 7 with Heart rate
observed at t=10 (value 80) and t=20 (value 95), the query at t=15 yields
the t=10 observation, the query at t=25 yields the open-interval t=20
observation, and the query at t=5 yields nothing. -/
theorem dynLookup_interval_semantics :
    (∀ (dtimes : List DynEntry) (c t : Nat) (e : DynEntry),
        e ∈ dynLookup dtimes c t ↔
          e ∈ dtimes ∧ e.caseId = c ∧ e.tsFrom ≤ t ∧
            (e.tsUntil = none ∨ ∃ u, e.tsUntil = some u ∧ t ≤ u)) ∧
      (∀ (rows : List DynRow) (c t : Nat) (a : String),
        (∀ r ∈ rows, r.caseId = c → r.attr = a → t < r.ts) →
        ∀ e ∈ dynLookup (mkDtimes rows) c t, e.attr ≠ a) ∧
      dynLookup (mkDtimes exRows) 7 15 = [⟨0, 7, "Heart rate", 80, 10, some 20⟩] ∧
      dynLookup (mkDtimes exRows) 7 25 = [⟨1, 7, "Heart rate", 95, 20, none⟩] ∧
      dynLookup (mkDtimes exRows) 7 5 = [] := by
  refine ⟨?_, ?_, by decide, by decide, by decide⟩
  · intro dtimes c t e
    rw [dynLookup, List.mem_filter, matchesAt_iff]
  · intro rows c t a hbefore e he ha
    have h1 := List.mem_filter.mp he
    obtain ⟨r, hr, hc, hat, hts⟩ := mem_mkDtimesFrom 0 rows e h1.1
    have h2 := (matchesAt_iff e c t).mp h1.2
    have hlt := hbefore r hr (hc ▸ h2.1) (hat ▸ ha)
    rw [← hts] at hlt
    exact absurd h2.2.1 (not_le.mpr hlt)

/-- C2 (witness): the before-first-observation conjunct applied to the
Heart-rate rows at the instant 5, and the lookup characterization applied to
a concrete entry. -/
theorem dynLookup_interval_semantics_witness :
    (∀ e ∈ dynLookup (mkDtimes exRows) 7 5, e.attr ≠ "Heart rate") ∧
      ((⟨0, 7, "Heart rate", 80, 10, some 20⟩ : DynEntry) ∈
          dynLookup (mkDtimes exRows) 7 15 ↔
        (⟨0, 7, "Heart rate", 80, 10, some 20⟩ : DynEntry) ∈ mkDtimes exRows ∧
          (7 : Nat) = 7 ∧ (10 : Nat) ≤ 15 ∧
          ((some 20 : Option Nat) = none ∨
            ∃ u, (some 20 : Option Nat) = some u ∧ 15 ≤ u)) :=
  ⟨dynLookup_interval_semantics.2.1 exRows 7 5 "Heart rate" (by decide),
   dynLookup_interval_semantics.1 (mkDtimes exRows) 7 15
     ⟨0, 7, "Heart rate", 80, 10, some 20⟩⟩

/-- C3 (counterexample): with two observations of case 1, attribute A, both
at timestamp 5, the lookup at instant 5 returns both entries — the claim
that at most one observation matches and that exactly the later entry is
returned at the shared boundary instant fails. -/
theorem dynLookup_shared_timestamp_cex :
    dynLookup (mkDtimes exDupTs) 1 5 =
      [⟨0, 1, "A", 1, 5, some 5⟩, ⟨1, 1, "A", 2, 5, none⟩] ∧
      dynLookup (mkDtimes exDupTs) 1 5 ≠ [⟨1, 1, "A", 2, 5, none⟩] ∧
      ¬ (dynLookup (mkDtimes exDupTs) 1 5).length ≤ 1 := by
  decide

/-- C3 (amended): when two observations of the same (case, attribute) group
share an identical timestamp, the lookup at that shared instant returns
both entries in table order — the earlier zero-length-interval entry AND
the later open entry — rather than only the later one. -/
theorem dynLookup_shared_timestamp :
    ∀ (c : Nat) (a : String) (v1 v2 : Int) (t : Nat),
      dynLookup (mkDtimes [⟨c, a, v1, t⟩, ⟨c, a, v2, t⟩]) c t =
        [⟨0, c, a, v1, t, some t⟩, ⟨1, c, a, v2, t, none⟩] := by
  intro c a v1 v2 t
  simp [mkDtimes, mkDtimesFrom, nextGroupTs, sameGroup, dynLookup, matchesAt,
    List.filter]

/-- C4 (counterexample): for a group whose rows arrive in the order
t=20, t=10, the code derives `until` in input order — the t=20 row gets
`until = 10` and the t=10 row gets an unbounded `until` — whereas the claim
(sort ascending, `until` of entry i is the timestamp of entry i+1) requires
the t=20 row to be open-ended and the t=10 row to get `until = 20`. -/
theorem mkDtimes_unsorted_cex :
    mkDtimes exUnsorted =
      [⟨0, 1, "A", 1, 20, some 10⟩, ⟨1, 1, "A", 2, 10, none⟩] ∧
      ¬ ((mkDtimes exUnsorted).map (fun e => (e.tsFrom, e.tsUntil)) =
          [(20, none), (10, some 20)]) := by
  decide

/-- C4 (amended): construction derives the `until` of each entry as the
timestamp of the next row of the same (case, attribute) group in input
order (unbounded when there is none); the groups are not sorted first.
When every group's rows already appear in strictly increasing timestamp
order, this agrees with the spec's sorted derivation: the `until` is the
least group timestamp strictly above the entry's timestamp (`specUntil`). -/
theorem mkDtimes_until_sorted_agrees :
    ∀ (rows : List DynRow), groupSorted rows →
      ∀ e ∈ mkDtimes rows, e.tsUntil = specUntil rows e :=
  fun rows hs e he => mkDtimesFrom_until_groupSorted rows hs 0 e he

/-- C4 (witness): the amended theorem applied to the sorted Heart-rate
rows and their first derived entry. -/
theorem mkDtimes_until_sorted_agrees_witness :
    (⟨0, 7, "Heart rate", 80, 10, some 20⟩ : DynEntry).tsUntil =
      specUntil exRows ⟨0, 7, "Heart rate", 80, 10, some 20⟩ :=
  mkDtimes_until_sorted_agrees exRows (by unfold groupSorted; decide)
    ⟨0, 7, "Heart rate", 80, 10, some 20⟩ (by decide)

/-! ## Helper lemmas for the Snapshot Deduplicator and Case Aligner -/

theorem stepEvent_of_found (dtimes : List DynEntry) (st : AlignState)
    (e : EvtRow) (n : Nat)
    (h : lookupKey st.idxState (eventKey dtimes e) = some n) :
    stepEvent dtimes st e = ⟨st.states, st.idxState, st.align ++ [n]⟩ := by
  unfold stepEvent
  rw [h]

theorem stepEvent_of_fresh (dtimes : List DynEntry) (st : AlignState)
    (e : EvtRow)
    (h : lookupKey st.idxState (eventKey dtimes e) = none) :
    stepEvent dtimes st e =
      ⟨st.states ++ [dynLookup dtimes e.caseId e.ts],
       st.idxState ++ [(eventKey dtimes e, st.states.length)],
       st.align ++ [st.states.length]⟩ := by
  unfold stepEvent
  rw [h]

theorem lookupKey_append_of_some (m : List (List Nat × Nat)) (k : List Nat)
    (n : Nat) (x : List Nat × Nat) (h : lookupKey m k = some n) :
    lookupKey (m ++ [x]) k = some n := by
  unfold lookupKey at *
  rw [List.find?_append]
  cases hf : m.find? (fun p => p.1 == k) with
  | none => rw [hf] at h; simp at h
  | some p =>
      rw [hf] at h
      simpa using h

theorem lookupKey_append_self (m : List (List Nat × Nat)) (k : List Nat)
    (n : Nat) (h : lookupKey m k = none) :
    lookupKey (m ++ [(k, n)]) k = some n := by
  unfold lookupKey at *
  rw [List.find?_append]
  cases hf : m.find? (fun p => p.1 == k) with
  | none => simp
  | some p => rw [hf] at h; simp at h

theorem lookupKey_value_mem (m : List (List Nat × Nat)) (k : List Nat)
    (n : Nat) (h : lookupKey m k = some n) :
    n ∈ m.map (fun p => p.2) := by
  unfold lookupKey at h
  cases hf : m.find? (fun p => p.1 == k) with
  | none => rw [hf] at h; simp at h
  | some p =>
      rw [hf] at h
      simp at h
      exact List.mem_map.mpr ⟨p, List.mem_of_find?_eq_some hf, h⟩

theorem lookupKey_none_not_mem (m : List (List Nat × Nat)) (k : List Nat)
    (h : lookupKey m k = none) : k ∉ m.map (fun p => p.1) := by
  intro hmem
  obtain ⟨p, hp, hpk⟩ := List.mem_map.mp hmem
  unfold lookupKey at h
  cases hf : m.find? (fun p => p.1 == k) with
  | some q => rw [hf] at h; simp at h
  | none =>
      have := List.find?_eq_none.mp hf p hp
      simp [hpk] at this

/-- The per-case loop invariant of `convertState`: `idx_state` maps its keys,
in insertion order, to `0, 1, 2, ...` up to the number of snapshots; keys are
never duplicated; every alignment entry is a valid snapshot index. -/
def StateInv (st : AlignState) : Prop :=
  st.idxState.map (fun p => p.2) = List.range st.states.length ∧
    (st.idxState.map (fun p => p.1)).Nodup ∧
    (∀ n ∈ st.align, n < st.states.length)

theorem stepEvent_inv (dtimes : List DynEntry) (st : AlignState) (e : EvtRow)
    (h : StateInv st) : StateInv (stepEvent dtimes st e) := by
  obtain ⟨h1, h2, h3⟩ := h
  cases hk : lookupKey st.idxState (eventKey dtimes e) with
  | some n =>
      rw [stepEvent_of_found dtimes st e n hk]
      refine ⟨h1, h2, ?_⟩
      intro m hm
      rcases List.mem_append.mp hm with hm | hm
      · exact h3 m hm
      · have hmn : m = n := by simpa using hm
        subst hmn
        have := lookupKey_value_mem st.idxState (eventKey dtimes e) m hk
        rw [h1] at this
        exact List.mem_range.mp this
  | none =>
      rw [stepEvent_of_fresh dtimes st e hk]
      refine ⟨?_, ?_, ?_⟩
      · simp only [List.map_append, List.length_append, List.length_cons,
          List.length_nil]
        rw [h1, List.range_succ]
        rfl
      · simp only [List.map_append]
        rw [List.nodup_append]
        exact ⟨h2, List.nodup_singleton _,
          by simpa using lookupKey_none_not_mem st.idxState (eventKey dtimes e) hk⟩
      · intro m hm
        simp only [List.length_append, List.length_cons, List.length_nil]
        rcases List.mem_append.mp hm with hm | hm
        · exact Nat.lt_succ_of_lt (h3 m hm)
        · have hmn : m = st.states.length := by simpa using hm
          omega

theorem foldl_step_inv (dtimes : List DynEntry) (events : List EvtRow)
    (st : AlignState) (h : StateInv st) :
    StateInv (events.foldl (stepEvent dtimes) st) := by
  induction events generalizing st with
  | nil => exact h
  | cons e evts ih => exact ih (stepEvent dtimes st e) (stepEvent_inv dtimes st e h)

theorem foldl_step_align_length (dtimes : List DynEntry) (events : List EvtRow)
    (st : AlignState) :
    (events.foldl (stepEvent dtimes) st).align.length =
      st.align.length + events.length := by
  induction events generalizing st with
  | nil => simp
  | cons e evts ih =>
      rw [List.foldl_cons, ih]
      cases hk : lookupKey st.idxState (eventKey dtimes e) with
      | some n =>
          rw [stepEvent_of_found dtimes st e n hk]
          simp only [List.length_append, List.length_cons, List.length_nil,
            List.length_cons]
          omega
      | none =>
          rw [stepEvent_of_fresh dtimes st e hk]
          simp only [List.length_append, List.length_cons, List.length_nil,
            List.length_cons]
          omega

/-! ## Claim theorems for the Snapshot Deduplicator, Case Aligner and the
case loop -/

/-- C5: an event whose identity key is already cached reuses the previous
state number — the snapshot table, the cache and hence the built snapshots
are unchanged and only the alignment grows by the cached index; a fresh
identity key is assigned index equal to the current table length and both
table and cache grow by exactly that one entry; a key, once cached, keeps
its value through later events; and over a whole case the cache maps its
keys, in first-occurrence order, to exactly 0, 1, 2, ... with no duplicate
key, so one snapshot is built per distinct key. -/
theorem snapshot_dedup_reuse :
    (∀ (dtimes : List DynEntry) (st : AlignState) (e : EvtRow) (n : Nat),
        lookupKey st.idxState (eventKey dtimes e) = some n →
        stepEvent dtimes st e = ⟨st.states, st.idxState, st.align ++ [n]⟩) ∧
      (∀ (dtimes : List DynEntry) (st : AlignState) (e : EvtRow),
        lookupKey st.idxState (eventKey dtimes e) = none →
        stepEvent dtimes st e =
          ⟨st.states ++ [dynLookup dtimes e.caseId e.ts],
           st.idxState ++ [(eventKey dtimes e, st.states.length)],
           st.align ++ [st.states.length]⟩) ∧
      (∀ (dtimes : List DynEntry) (st : AlignState) (e e2 : EvtRow) (n : Nat),
        lookupKey st.idxState (eventKey dtimes e) = some n →
        lookupKey (stepEvent dtimes st e2).idxState (eventKey dtimes e) = some n) ∧
      (∀ (dtimes : List DynEntry) (events : List EvtRow),
        (alignCase dtimes events).idxState.map (fun p => p.2) =
          List.range (alignCase dtimes events).states.length ∧
        ((alignCase dtimes events).idxState.map (fun p => p.1)).Nodup) := by
  refine ⟨stepEvent_of_found, stepEvent_of_fresh, ?_, ?_⟩
  · intro dtimes st e e2 n h
    cases hk : lookupKey st.idxState (eventKey dtimes e2) with
    | some m => rw [stepEvent_of_found dtimes st e2 m hk]; exact h
    | none =>
        rw [stepEvent_of_fresh dtimes st e2 hk]
        exact lookupKey_append_of_some _ _ _ _ h
  · intro dtimes events
    have := foldl_step_inv dtimes events ⟨[], [], []⟩ ⟨rfl, by simp, by simp⟩
    exact ⟨this.1, this.2.1⟩

/-- C5 (witness): the reuse conjunct applied after one Heart-rate event —
the second event at t=18 falls in the same interval, finds the cached key
and leaves the snapshot table unchanged. -/
theorem snapshot_dedup_reuse_witness :
    lookupKey (alignCase (mkDtimes exRows) [⟨7, 12⟩]).idxState
        (eventKey (mkDtimes exRows) ⟨7, 18⟩) = some 0 ∧
      stepEvent (mkDtimes exRows) (alignCase (mkDtimes exRows) [⟨7, 12⟩]) ⟨7, 18⟩ =
        ⟨(alignCase (mkDtimes exRows) [⟨7, 12⟩]).states,
         (alignCase (mkDtimes exRows) [⟨7, 12⟩]).idxState,
         (alignCase (mkDtimes exRows) [⟨7, 12⟩]).align ++ [0]⟩ :=
  ⟨by decide,
   snapshot_dedup_reuse.1 (mkDtimes exRows) (alignCase (mkDtimes exRows) [⟨7, 12⟩])
     ⟨7, 18⟩ 0 (by decide)⟩

/-- C6: for every case, the alignment produced by the event loop has exactly
one entry per event, and every alignment entry is a valid index into the
case's snapshot table. -/
theorem alignCase_alignment_valid :
    ∀ (dtimes : List DynEntry) (events : List EvtRow),
      (alignCase dtimes events).align.length = events.length ∧
      ∀ n ∈ (alignCase dtimes events).align,
        n < (alignCase dtimes events).states.length := by
  intro dtimes events
  constructor
  · have := foldl_step_align_length dtimes events ⟨[], [], []⟩
    simpa [alignCase] using this
  · exact (foldl_step_inv dtimes events ⟨[], [], []⟩ ⟨rfl, by simp, by simp⟩).2.2

/-- C9: the case loop stops right after processing the case whose id is 88 —
with no earlier case 88, all case groups after it contribute nothing to the
output; when no case has id 88 every case group is processed in order. -/
theorem processCases_stops_after_88 :
    (∀ (dtimes : List DynEntry) (pre : List CaseGroup) (c : CaseGroup)
        (post : List CaseGroup),
        c.caseId = 88 → (∀ p ∈ pre, p.caseId ≠ 88) →
        processCases dtimes (pre ++ c :: post) = processCases dtimes (pre ++ [c])) ∧
      (∀ (dtimes : List DynEntry) (cgs : List CaseGroup),
        (∀ c ∈ cgs, c.caseId ≠ 88) →
        processCases dtimes cgs =
          cgs.map (fun c => (c.caseId, alignCase dtimes c.events))) := by
  constructor
  · intro dtimes pre c post h88 hpre
    induction pre with
    | nil => simp [processCases, h88]
    | cons p pre2 ih =>
        have hp : p.caseId ≠ 88 := hpre p (by simp)
        simp only [List.cons_append, processCases, if_neg hp]
        exact congrArg _ (ih (fun q hq => hpre q (by simp [hq])))
  · intro dtimes cgs hne
    induction cgs with
    | nil => rfl
    | cons c cgs2 ih =>
        have hc : c.caseId ≠ 88 := hne c (by simp)
        simp only [processCases, if_neg hc, List.map_cons]
        exact congrArg _ (ih (fun q hq => hne q (by simp [hq])))

/-- C9 (witness): with cases 1, 88, 90 in order, case 90 contributes
nothing; with cases 1 and 2 everything is processed. -/
theorem processCases_stops_after_88_witness :
    processCases [] [⟨1, []⟩, ⟨88, []⟩, ⟨90, []⟩] =
        processCases [] [⟨1, []⟩, ⟨88, []⟩] ∧
      processCases [] [⟨1, []⟩, ⟨2, []⟩] =
        ([⟨1, []⟩, ⟨2, []⟩] : List CaseGroup).map
          (fun c => (c.caseId, alignCase [] c.events)) :=
  ⟨processCases_stops_after_88.1 [] [⟨1, []⟩] ⟨88, []⟩ [⟨90, []⟩]
      (by decide) (by decide),
   processCases_stops_after_88.2 [] [⟨1, []⟩, ⟨2, []⟩] (by decide)⟩

/-! ## Claim theorem for the event-log converter -/

theorem logLoop_flatten (rows : List LogRow) :
    ∀ (c : String) (evts : List String),
      ((logLoop rows (some c) evts).map (fun p => p.2)).flatten =
        evts ++ rows.map (fun r => r.evt) := by
  induction rows with
  | nil => intro c evts; simp [logLoop]
  | cons r rest ih =>
      intro c evts
      by_cases h : c = r.caseId
      · simp only [logLoop, if_pos h]
        rw [ih c (evts ++ [r.evt])]
        simp
      · simp only [logLoop, if_neg h, List.map_cons, List.flatten_cons]
        rw [ih r.caseId [r.evt]]
        simp

/-- C10: `convertLog` reads the log with `DictReader` (consuming the header)
and then drops one more row with `next(reader)`, so for every log with at
least one data row the emitted trace statements serialize exactly the events
of the remaining rows — the first data row's event contributes nothing. -/
theorem convertLog_drops_first_row :
    ∀ (r : LogRow) (rest : List LogRow),
      convertLog (r :: rest) = logLoop rest none [] ∧
      ((convertLog (r :: rest)).map (fun p => p.2)).flatten =
        rest.map (fun x => x.evt) := by
  intro r rest
  refine ⟨rfl, ?_⟩
  show ((logLoop rest none []).map (fun p => p.2)).flatten = _
  cases rest with
  | nil => rfl
  | cons r2 rest2 =>
      show ((logLoop rest2 (some r2.caseId) [r2.evt]).map (fun p => p.2)).flatten = _
      rw [logLoop_flatten rest2 r2.caseId [r2.evt]]
      simp

end Cmmn3
